import Mathlib

/-!
# Verification of the librustzcash chain-cache layer

A shallow embedding of the block-cache, cache-traversal, metadata-insert and
compact-block accessor code of `zcash_client_sqlite/src/chain.rs` and
`zcash_client_backend/src/proto.rs`, together with spec-level models of the
scanner, chain validator and rewind engine (whose implementations live outside
the provided sources and are reconstructed from the specification).

Machine integers are modelled as `Nat` with explicit `2 ^ 32` bounds where the
Rust code uses `u32`/`u64`.  Fallible Rust functions become `Option`/`Except`
returning Lean functions; the SQLite connection state is passed explicitly and
failure of individual SQL statements is governed by explicit failure oracles
passed as arguments.  Effectful `FnMut` callbacks are embedded as state-passing
functions `σ → α → Except ε σ`, so a specification can observe exactly which
rows a traversal handed to its callback.
-/

namespace Zcash

/-! ## Generic ordered query

Both cache backends issue the same shaped SQL query:
`SELECT … WHERE height > ? ORDER BY height ASC LIMIT ?`.
We embed it as: filter the table by `lsh < height`, sort ascending by height
(an insertion sort keyed by an arbitrary height projection `hOf`), and take the
limit, where an absent limit is `u32::max_value() = 2 ^ 32 - 1` exactly as in
`limit.unwrap_or(u32::max_value())`. -/

/-- Insert `a` into `l` in front of the first element of key not below `hOf a`. -/
def sortInsert (hOf : α → Nat) (a : α) : List α → List α
  | [] => [a]
  | b :: bs => if hOf a ≤ hOf b then a :: b :: bs else b :: sortInsert hOf a bs

/-- Insertion sort by the key `hOf`, ascending. -/
def sortByKey (hOf : α → Nat) : List α → List α
  | [] => []
  | a :: as => sortInsert hOf a (sortByKey hOf as)

/-- The result set of `SELECT … WHERE height > lsh ORDER BY height ASC LIMIT lim`
over a table `l` whose rows have height `hOf ·`. -/
def orderedQuery (hOf : α → Nat) (l : List α) (lsh : Nat) (lim : Option Nat) : List α :=
  (sortByKey hOf (l.filter fun r => decide (lsh < hOf r))).take (lim.getD (2 ^ 32 - 1))

/-! ## Metadata index: `SELECT MAX(height)` (claim C1)

`blockmetadb_get_max_cached_height` runs `SELECT MAX(height) FROM
compactblocks_meta`, which yields `NULL` exactly on an empty table.  The
metadata table is embedded as a list of `BlockMeta` rows. -/

/-- A row of the `compactblocks_meta` table (`BlockMeta` in `chain.rs`).
Heights and times are `u32`; the block hash is 32 raw bytes. -/
structure BlockMeta where
  height : Nat
  blockHash : List Nat
  blockTime : Nat
  saplingOutputsCount : Nat
  orchardActionsCount : Nat
deriving DecidableEq, Repr

/-- `SELECT MAX(height) FROM compactblocks_meta`: `none` iff the table is
empty, otherwise the greatest height appearing in any row. -/
def blockmetadb_get_max_cached_height (table : List BlockMeta) : Option Nat :=
  table.foldl
    (fun acc m =>
      match acc with
      | none => some m.height
      | some h => some (max h m.height))
    none

/-- The least indexed height, if any (the metadata backend's floor). -/
def minIndexedHeight (table : List BlockMeta) : Option Nat :=
  table.foldl
    (fun acc m =>
      match acc with
      | none => some m.height
      | some h => some (min h m.height))
    none

/-- Walk upward from `h` while the successor height is indexed, for at most
`k` steps. -/
def contigFrom (hs : List Nat) : Nat → Nat → Nat
  | 0, h => h
  | k + 1, h => if (h + 1) ∈ hs then contigFrom hs k (h + 1) else h

/-- The specification's words for `highest_contiguous_height()` on the
metadata-index backend: the greatest `H` such that every height in
`[floor, H]` is indexed, where `floor` is the lowest indexed height.  Stated
for comparison with `blockmetadb_get_max_cached_height`, which the source
actually implements. -/
def spec_highest_contiguous_height (table : List BlockMeta) : Option Nat :=
  match minIndexedHeight table with
  | none => none
  | some f => some (contigFrom (table.map BlockMeta.height) table.length f)

/-! ## Compact-block protobuf accessors (`zcash_client_backend/src/proto.rs`)

The protobuf `CompactBlock` message carries a `u64` height, raw byte fields
`hash`, `prevHash` and `header`, and the transactions.  The external wire codec
(`protobuf`) and the `zcash_primitives` block-header codec are out of scope per
the specification ("the wire encoding/decoding of individual block messages
[is] an external codec"); they enter the embedding as explicit function
arguments.  Functions that can panic in Rust return `Option`, with `none`
marking the panic. -/

/-- The in-memory result of parsing a `BlockHeader` with `BlockHeader::read`:
the values the two accessors of `proto.rs` extract from it — `header.hash()`
and `header.prev_block`, each 32 bytes. -/
structure BlockHeader where
  hashBytes : List Nat
  prev_block : List Nat
deriving DecidableEq, Repr

/-- The decoded protobuf `CompactBlock` message: `height` is a `u64` field;
`hash`, `prevHash` and `header` are raw byte strings; `vtx` stands for the
encoded transaction list (never inspected by the code under verification). -/
structure PBBlock where
  height : Nat
  hash : List Nat
  prevHash : List Nat
  header : List Nat
  vtx : List Nat
deriving DecidableEq, Repr

/-- `BlockHash::from_slice` copies exactly 32 bytes and panics otherwise;
`none` is the panic. -/
def BlockHash.from_slice (bs : List Nat) : Option (List Nat) :=
  if bs.length = 32 then some bs else none

/-- `CompactBlock::header()`: `None` when the `header` field is empty,
otherwise `BlockHeader::read(&self.header[..]).ok()`, where the external
codec `read` is passed in explicitly. -/
def PBBlock.headerOpt (read : List Nat → Option BlockHeader) (b : PBBlock) :
    Option BlockHeader :=
  if b.header.isEmpty then none else read b.header

/-- `CompactBlock::hash()`: the header's hash when `header()` is `Some`, else
`BlockHash::from_slice(&self.hash)`.  `none` is the `from_slice` panic. -/
def PBBlock.hashAcc (read : List Nat → Option BlockHeader) (b : PBBlock) :
    Option (List Nat) :=
  match b.headerOpt read with
  | some hd => some hd.hashBytes
  | none => BlockHash.from_slice b.hash

/-- `CompactBlock::prev_hash()`: the header's `prev_block` when `header()` is
`Some`, else `BlockHash::from_slice(&self.prevHash)`. -/
def PBBlock.prevHashAcc (read : List Nat → Option BlockHeader) (b : PBBlock) :
    Option (List Nat) :=
  match b.headerOpt read with
  | some hd => some hd.prev_block
  | none => BlockHash.from_slice b.prevHash

/-- `CompactBlock::height()`: `self.height.try_into().unwrap()` — converts the
`u64` field to a `u32`-backed `BlockHeight`, panicking when it does not fit;
`none` is the panic. -/
def PBBlock.heightAcc (b : PBBlock) : Option Nat :=
  if b.height < 2 ^ 32 then some b.height else none

/-! ## Cache traversal (`blockdb_with_blocks`, `fsblockdb_with_blocks`)

A row of the blob backend's `compactblocks` table is `(height, data)`; the
filesystem backend walks `compactblocks_meta` rows and opens one file per row.
The traversal loop threads the callback state `σ` and stops at the first
failure.  The outcome distinguishes normal completion, an error return (the
Rust `Err`), and a panic (the `CompactBlock::height()` unwrap); the `err` and
`panicked` outcomes carry the callback state reached so far, since the
callback's effects up to the failure have already been committed. -/

/-- A row of the `compactblocks` table (struct `CompactBlockRow`). -/
structure CompactBlockRow where
  height : Nat
  data : List Nat
deriving DecidableEq, Repr

/-- The errors the traversal and insert paths can produce, abstracted from
`SqliteClientError`: `CorruptedData` carries the two disagreeing heights that
the Rust code formats into its message; `BackendParse` is a wrapped protobuf
decoding failure; `IoError` a failed `File::open`; `Misc` stands for any other
`SqliteClientError` value a callback may return. -/
inductive SqErr
  | CorruptedData (blockHeight rowHeight : Nat)
  | BackendParse
  | IoError
  | Misc (code : Nat)
deriving DecidableEq, Repr

/-- Outcome of a traversal, instrumented with the callback state. -/
inductive Traversal (σ : Type)
  | ok (s : σ)
  | err (e : SqErr) (s : σ)
  | panicked (s : σ)
deriving DecidableEq, Repr

/-- The body of `blockdb_with_blocks`' row loop: parse the row's `data`, take
`block.height()` (panicking if the `u64` overflows `u32`), compare it with the
row's height key, and hand the block to `with_row`. -/
def blockdbLoop (parse : List Nat → Option PBBlock)
    (withRow : σ → PBBlock → Except SqErr σ) :
    List CompactBlockRow → σ → Traversal σ
  | [], s => .ok s
  | r :: rs, s =>
    match parse r.data with
    | none => .err .BackendParse s
    | some block =>
      match block.heightAcc with
      | none => .panicked s
      | some bh =>
        if bh = r.height then
          match withRow s block with
          | .error e => .err e s
          | .ok s2 => blockdbLoop parse withRow rs s2
        else
          .err (.CorruptedData bh r.height) s

/-- `blockdb_with_blocks cache last_scanned_height limit with_row`: query the
`compactblocks` table for rows above `last_scanned_height` ascending (limit
defaulting to `u32::max_value()`), then run the row loop. -/
def blockdb_with_blocks (parse : List Nat → Option PBBlock)
    (cache : List CompactBlockRow) (last_scanned_height : Nat) (limit : Option Nat)
    (withRow : σ → PBBlock → Except SqErr σ) (s0 : σ) : Traversal σ :=
  blockdbLoop parse withRow
    (orderedQuery CompactBlockRow.height cache last_scanned_height limit) s0

/-- The body of `fsblockdb_with_blocks`' row loop: open the block file named
by the row's `(height, hash)` (an `Io` error if that fails), parse its
contents, and proceed exactly as the blob loop.  `files` models the block
directory as a finite map (with absent entries) from `(height, blockhash)` to file contents. -/
def fsblockdbLoop (files : Nat → List Nat → Option (List Nat))
    (parse : List Nat → Option PBBlock)
    (withBlock : σ → PBBlock → Except SqErr σ) :
    List BlockMeta → σ → Traversal σ
  | [], s => .ok s
  | m :: ms, s =>
    match files m.height m.blockHash with
    | none => .err .IoError s
    | some bytes =>
      match parse bytes with
      | none => .err .BackendParse s
      | some block =>
        match block.heightAcc with
        | none => .panicked s
        | some bh =>
          if bh = m.height then
            match withBlock s block with
            | .error e => .err e s
            | .ok s2 => fsblockdbLoop files parse withBlock ms s2
          else
            .err (.CorruptedData bh m.height) s

/-- `fsblockdb_with_blocks cache last_scanned_height limit with_block`: query
`compactblocks_meta` for rows above `last_scanned_height` ascending (limit
defaulting to `u32::max_value()`), then run the filesystem row loop. -/
def fsblockdb_with_blocks (files : Nat → List Nat → Option (List Nat))
    (parse : List Nat → Option PBBlock)
    (meta : List BlockMeta) (last_scanned_height : Nat) (limit : Option Nat)
    (withBlock : σ → PBBlock → Except SqErr σ) (s0 : σ) : Traversal σ :=
  fsblockdbLoop files parse withBlock
    (orderedQuery BlockMeta.height meta last_scanned_height limit) s0

/-! ## Metadata batch insert (`blockmetadb_insert`)

The insert prepares a statement, opens a transaction with `BEGIN IMMEDIATE`,
executes one `INSERT` per row of the batch (the `collect::<Result<…>>` stops at
the first failing row), then `COMMIT`s on success; on a row failure it
`ROLLBACK`s and returns the row's error, and if the rollback itself fails it
panics.  Statement failures are nondeterministic in Rust (they depend on the
database); the embedding receives them as explicit failure oracles: `prepFail`,
`beginFail`, `commitFail`, `rollbackFail` give the outcome of the respective
statements, and `insFail m` the outcome of inserting row `m`.  Rows buffered
inside the open transaction are invisible until `COMMIT`, so the visible table
is carried explicitly. -/

/-- Outcome of `blockmetadb_insert`: the visible `compactblocks_meta` table
after the call, or a panic. -/
inductive InsertOutcome
  | ok (table : List BlockMeta)
  | err (code : Nat) (table : List BlockMeta)
  | panicked
deriving DecidableEq, Repr

/-- The error of the first failing row insert of the batch, if any
(`.map(…).collect::<Result<Vec<_>, _>>()` short-circuits at the first `Err`). -/
def firstInsertErr (insFail : BlockMeta → Option Nat) : List BlockMeta → Option Nat
  | [] => none
  | m :: ms =>
    match insFail m with
    | some e => some e
    | none => firstInsertErr insFail ms

/-- `blockmetadb_insert conn block_meta` over the visible `table`, with the
statement-failure oracles made explicit. -/
def blockmetadb_insert (prepFail beginFail commitFail rollbackFail : Option Nat)
    (insFail : BlockMeta → Option Nat)
    (table : List BlockMeta) (block_meta : List BlockMeta) : InsertOutcome :=
  match prepFail with
  | some e => .err e table
  | none =>
    match beginFail with
    | some e => .err e table
    | none =>
      match firstInsertErr insFail block_meta with
      | none =>
        match commitFail with
        | none => .ok (table ++ block_meta)
        | some e => .err e table
      | some e =>
        match rollbackFail with
        | none => .err e table
        | some _ => .panicked

/-! ## Spec-level scanner, validator and rewind engine

`scan_cached_blocks`, `validate_chain`, `rewind_to_height` and `get_balance`
are implemented in `zcash_client_backend`/the wallet module, which are not
among the provided sources — only their tests are.  They are modelled from the
specification (§4.3–§4.5): blocks at this level are an in-memory block-summary
value, the decryption oracle is an explicit function, and the wallet store
records the scanned `(height, hash)` history and discovered notes. -/

/-- Modelled from the spec: the in-memory compact block as the
scanner/validator consume it — height, hash, parent hash, and the ordered
output descriptors handed to the external decryption oracle. Hashes and
output descriptors are abstract values. -/
structure SBlock where
  height : Nat
  hash : Nat
  prevHash : Nat
  outputs : List Nat
deriving DecidableEq, Repr

/-- Modelled from the spec: a wallet-store note — owning account, value, and
the height it was discovered in. -/
structure SNote where
  account : Nat
  value : Nat
  heightFound : Nat
deriving DecidableEq, Repr

/-- Modelled from the spec: the wallet store — the ascending `(height, hash)`
history of scanned blocks (whose last entry is the checkpoint) and the
discovered notes. -/
structure WalletS where
  scanned : List (Nat × Nat)
  notes : List SNote
deriving DecidableEq, Repr

/-- The wallet checkpoint: the scanned entry of maximal height, if any. -/
def checkpointOf (ws : WalletS) : Option (Nat × Nat) :=
  ws.scanned.foldl
    (fun acc p =>
      match acc with
      | none => some p
      | some q => if q.1 < p.1 then some p else some q)
    none

/-- Modelled from the spec: an account's balance — the sum of the values of
its (unspent) notes. -/
def get_balance (ws : WalletS) (account : Nat) : Nat :=
  (ws.notes.filter fun n => decide (n.account = account)).foldl
    (fun acc n => acc + n.value) 0

/-- Modelled from the spec: the scanner's fatal height-gap error, naming the
expected and the found height. -/
inductive ScanError
  | blockHeightDiscontinuity (expected found : Nat)
deriving DecidableEq, Repr

/-- Modelled from the spec: processing one block — invoke the oracle on each
output descriptor, append the resulting notes, and advance the checkpoint to
this block's height and hash as one atomic unit. -/
def scanBlock (oracle : Nat → Option (Nat × Nat)) (ws : WalletS) (b : SBlock) :
    WalletS :=
  { scanned := ws.scanned ++ [(b.height, b.hash)]
    notes := ws.notes ++
      (b.outputs.filterMap oracle).map fun av => ⟨av.1, av.2, b.height⟩ }

/-- Modelled from the spec: the scanner's strict-sequentiality loop — each
block's height must be exactly one above the last height processed (initially
the checkpoint height); a gap stops the scan with a discontinuity error, the
effects of the blocks already processed staying committed. -/
def scanLoop (oracle : Nat → Option (Nat × Nat)) :
    List SBlock → Nat → WalletS → WalletS × Option ScanError
  | [], _, ws => (ws, none)
  | b :: bs, last, ws =>
    if b.height = last + 1 then
      scanLoop oracle bs b.height (scanBlock oracle ws b)
    else
      (ws, some (.blockHeightDiscontinuity (last + 1) b.height))

/-- Modelled from the spec: `scan(cache, wallet_store, limit)` — drive the
cache traversal from the wallet checkpoint (or from one below the activation
height when the wallet is empty) and run the sequential scan loop. -/
def scan_cached_blocks (oracle : Nat → Option (Nat × Nat)) (activation : Nat)
    (cache : List SBlock) (ws : WalletS) (limit : Option Nat) :
    WalletS × Option ScanError :=
  let last :=
    match checkpointOf ws with
    | some p => p.1
    | none => activation - 1
  scanLoop oracle (orderedQuery SBlock.height cache last limit) last ws

/-- Modelled from the spec: the validator's invalid-chain error, carrying the
failing height as the lower bound of untrustworthy data. -/
inductive ValidateError
  | invalidChain (lowerBound : Nat)
deriving DecidableEq, Repr

/-- Modelled from the spec: the validator's walk — `expect` holds the hash the
next block's `prevHash` must equal (`none` before the first block when the
wallet store is empty); the first block failing the check is reported by its
height. -/
def validateLoop : List SBlock → Option Nat → Option ValidateError
  | [], _ => none
  | b :: bs, expect =>
    match expect with
    | none => validateLoop bs (some b.hash)
    | some ph =>
      if b.prevHash = ph then validateLoop bs (some b.hash)
      else some (.invalidChain b.height)

/-- The sequence of cached blocks the validator walks: the blocks above the
wallet tip's height in ascending height order, or all cached blocks ascending
when the wallet store is empty. -/
def validationWalk (cache : List SBlock) (wallet_tip : Option (Nat × Nat)) :
    List SBlock :=
  match wallet_tip with
  | none => sortByKey SBlock.height cache
  | some t => orderedQuery SBlock.height cache t.1 none

/-- The hash the first walked block's `prevHash` is checked against: the
wallet tip's hash, or nothing when the wallet store is empty. -/
def initialExpect (wallet_tip : Option (Nat × Nat)) : Option Nat :=
  wallet_tip.map Prod.snd

/-- Modelled from the spec: `validate(cache, wallet_tip)` — walk the cached
blocks above the wallet tip's height (all cached blocks when the wallet store
is empty) in ascending height order; the first block's `prevHash` must match
the tip's hash when a tip is present, and every later block's `prevHash` the
previous block's hash.  `none` means the chain is valid. -/
def validate_chain (cache : List SBlock) (wallet_tip : Option (Nat × Nat)) :
    Option ValidateError :=
  validateLoop (validationWalk cache wallet_tip) (initialExpect wallet_tip)

/-- Whether every hash link along `l` holds, starting from the expectation
`e` (`linksOk` is the all-checks-pass predicate of `validateLoop`). -/
def linksOk : Option Nat → List SBlock → Bool
  | _, [] => true
  | none, b :: bs => linksOk (some b.hash) bs
  | some ph, b :: bs => decide (b.prevHash = ph) && linksOk (some b.hash) bs

/-- The expectation `validateLoop` carries after consuming `l` from the
initial expectation `e`: the last block's hash, or `e` when `l` is empty. -/
def expectAfter (e : Option Nat) (l : List SBlock) : Option Nat :=
  l.foldl (fun _ b => some b.hash) e

/-- Modelled from the spec: the rewind engine's safety error, reporting the
nearest safe height and the height actually requested. -/
inductive RewindError
  | requestedRewindInvalid (safe requested : Nat)
deriving DecidableEq, Repr

/-- Modelled from the spec: `rewind_to_height(wallet_store, target_height)` —
a no-op at or above the checkpoint; rejected when the target lies more than
the configured pruning depth below the checkpoint; otherwise atomically drop
every note discovered above the target and retract the scanned history (and
with it the checkpoint) to the target.  The designated stable-checkpoint
exception to the depth bound is left out: the spec leaves its exact semantics
open and no claim exercises it. -/
def rewind_to_height (pruneDepth : Nat) (ws : WalletS) (target : Nat) :
    Except RewindError WalletS :=
  match checkpointOf ws with
  | none => .ok ws
  | some cp =>
    if cp.1 ≤ target then .ok ws
    else if target + pruneDepth < cp.1 then
      .error (.requestedRewindInvalid (cp.1 - pruneDepth) target)
    else
      .ok
        { scanned := ws.scanned.filter fun p => decide (p.1 ≤ target)
          notes := ws.notes.filter fun n => decide (n.heightFound ≤ target) }

/-! ## Properties of the ordered query: permutation and sortedness -/

theorem sortInsert_perm (hOf : α → Nat) (a : α) :
    ∀ l : List α, List.Perm (sortInsert hOf a l) (a :: l) := by
  intro l
  induction l with
  | nil => simp [sortInsert]
  | cons b bs ih =>
    by_cases h : hOf a ≤ hOf b
    · simp [sortInsert, h]
    · simp only [sortInsert, if_neg h]
      exact List.Perm.trans (List.Perm.cons b ih) (List.Perm.swap a b bs)

theorem sortByKey_perm (hOf : α → Nat) :
    ∀ l : List α, List.Perm (sortByKey hOf l) l := by
  intro l
  induction l with
  | nil => simp [sortByKey]
  | cons a as ih =>
    exact List.Perm.trans (sortInsert_perm hOf a (sortByKey hOf as)) (List.Perm.cons a ih)

theorem sortInsert_pairwise (hOf : α → Nat) (a : α) (l : List α)
    (hl : List.Pairwise (fun x y => hOf x ≤ hOf y) l) :
    List.Pairwise (fun x y => hOf x ≤ hOf y) (sortInsert hOf a l) := by
  induction l with
  | nil => simp [sortInsert]
  | cons b bs ih =>
    rcases List.pairwise_cons.mp hl with ⟨hb, hbs⟩
    by_cases h : hOf a ≤ hOf b
    · simp only [sortInsert, if_pos h]
      refine List.pairwise_cons.mpr ⟨?_, hl⟩
      intro x hx
      rcases List.mem_cons.mp hx with rfl | hx
      · exact h
      · exact Nat.le_trans h (hb x hx)
    · simp only [sortInsert, if_neg h]
      refine List.pairwise_cons.mpr ⟨?_, ih hbs⟩
      intro x hx
      have hm := (sortInsert_perm hOf a bs).mem_iff.mp hx
      rcases List.mem_cons.mp hm with rfl | hx
      · exact Nat.le_of_lt (Nat.lt_of_not_le h)
      · exact hb x hx

theorem sortByKey_pairwise (hOf : α → Nat) :
    ∀ l : List α, List.Pairwise (fun x y => hOf x ≤ hOf y) (sortByKey hOf l) := by
  intro l
  induction l with
  | nil => simp [sortByKey]
  | cons a as ih => exact sortInsert_pairwise hOf a (sortByKey hOf as) ih

/-! ## Claim C1 — `highest_contiguous_height` on the metadata-index backend -/

theorem foldl_optMax_eq (ms : List BlockMeta) (h : Nat) :
    ms.foldl
        (fun acc m =>
          match acc with
          | none => some m.height
          | some g => some (max g m.height))
        (some h)
      = some (ms.foldl (fun g m => max g m.height) h) := by
  induction ms generalizing h with
  | nil => rfl
  | cons m ms ih => simpa using ih (max h m.height)

theorem foldl_maxHeight_spec (ms : List BlockMeta) (h : Nat) :
    h ≤ ms.foldl (fun g m => max g m.height) h ∧
    (∀ m ∈ ms, m.height ≤ ms.foldl (fun g m => max g m.height) h) ∧
    (ms.foldl (fun g m => max g m.height) h = h ∨
      ∃ m ∈ ms, m.height = ms.foldl (fun g m => max g m.height) h) := by
  induction ms generalizing h with
  | nil => simp
  | cons m ms ih =>
    obtain ⟨ih1, ih2, ih3⟩ := ih (max h m.height)
    refine ⟨Nat.le_trans (Nat.le_max_left _ _) ih1, ?_, ?_⟩
    · intro x hx
      rcases List.mem_cons.mp hx with rfl | hx
      · exact Nat.le_trans (Nat.le_max_right _ _) ih1
      · exact ih2 x hx
    · rcases ih3 with heq | ⟨x, hx, hxeq⟩
      · rcases max_choice h m.height with hc | hc
        · left
          simp only [List.foldl_cons]
          rw [heq, hc]
        · right
          exact ⟨m, List.mem_cons_self m ms, by simp only [List.foldl_cons]; rw [heq, hc]⟩
      · exact Or.inr ⟨x, List.mem_cons_of_mem m hx, hxeq⟩

/-- C1 (amended): `blockmetadb_get_max_cached_height` returns `None` exactly
when the metadata index is empty, and otherwise the maximum indexed height —
an indexed height that bounds every indexed height — regardless of whether the
heights below it are contiguously indexed. -/
theorem C1_max_cached_height_amended (table : List BlockMeta) :
    (blockmetadb_get_max_cached_height table = none ↔ table = []) ∧
    ∀ h, blockmetadb_get_max_cached_height table = some h →
      (∃ m ∈ table, m.height = h) ∧ ∀ m ∈ table, m.height ≤ h := by
  constructor
  · cases table with
    | nil => simp [blockmetadb_get_max_cached_height]
    | cons m ms =>
      simp only [blockmetadb_get_max_cached_height, List.foldl_cons]
      rw [foldl_optMax_eq]
      simp
  · intro h hh
    cases table with
    | nil => simp [blockmetadb_get_max_cached_height] at hh
    | cons m ms =>
      simp only [blockmetadb_get_max_cached_height, List.foldl_cons] at hh
      rw [foldl_optMax_eq] at hh
      obtain ⟨h1, h2, h3⟩ := foldl_maxHeight_spec ms m.height
      have heq : ms.foldl (fun g m => max g m.height) m.height = h :=
        Option.some_injective _ hh
      constructor
      · rcases h3 with he | ⟨x, hx, hxe⟩
        · exact ⟨m, List.mem_cons_self m ms, by rw [← heq, he]⟩
        · exact ⟨x, List.mem_cons_of_mem m hx, by rw [← heq, hxe]⟩
      · intro x hx
        rcases List.mem_cons.mp hx with rfl | hx
        · rw [← heq]; exact h1
        · rw [← heq]; exact h2 x hx

/-- C1 witness: on a concrete two-row index the amended theorem applies, and
the returned height `12` is the maximum indexed height. -/
theorem C1_witness :
    blockmetadb_get_max_cached_height
        [⟨10, [0], 0, 0, 0⟩, ⟨12, [0], 0, 0, 0⟩] = some 12 ∧
    ((∃ m ∈ [(⟨10, [0], 0, 0, 0⟩ : BlockMeta), ⟨12, [0], 0, 0, 0⟩], m.height = 12) ∧
      ∀ m ∈ [(⟨10, [0], 0, 0, 0⟩ : BlockMeta), ⟨12, [0], 0, 0, 0⟩], m.height ≤ 12) :=
  ⟨by decide,
    (C1_max_cached_height_amended [⟨10, [0], 0, 0, 0⟩, ⟨12, [0], 0, 0, 0⟩]).2 12 (by decide)⟩

/-- C1 counterexample: an index holding heights `10` and `12` (height `11`
missing).  The code's `SELECT MAX(height)` answers `12`, while the greatest
height contiguously stored from the floor (`10`) is `10`: the claim that the
returned height is the top of the contiguous run starting at the floor, and
not merely the maximum indexed height, fails. -/
theorem C1_counterexample :
    blockmetadb_get_max_cached_height
        [⟨10, [0], 0, 0, 0⟩, ⟨12, [0], 0, 0, 0⟩] = some 12 ∧
    spec_highest_contiguous_height
        [⟨10, [0], 0, 0, 0⟩, ⟨12, [0], 0, 0, 0⟩] = some 10 ∧
    blockmetadb_get_max_cached_height
        [⟨10, [0], 0, 0, 0⟩, ⟨12, [0], 0, 0, 0⟩] ≠
      spec_highest_contiguous_height
        [⟨10, [0], 0, 0, 0⟩, ⟨12, [0], 0, 0, 0⟩] := by
  refine ⟨by decide, by decide, by decide⟩

/-! ## Claims C3, C4 — atomicity and the panic path of `blockmetadb_insert` -/

theorem firstInsertErr_none_of_all (insFail : BlockMeta → Option Nat)
    (batch : List BlockMeta) (h : ∀ m ∈ batch, insFail m = none) :
    firstInsertErr insFail batch = none := by
  induction batch with
  | nil => rfl
  | cons m ms ih =>
    simp only [firstInsertErr, h m (List.mem_cons_self m ms)]
    exact ih fun x hx => h x (List.mem_cons_of_mem m hx)

/-- C3: a metadata batch insert is atomic.  With the statement preparation and
`BEGIN IMMEDIATE` succeeding: if every row insert succeeds and the `COMMIT`
succeeds the whole batch is appended to the table; if some row insert fails
and the `ROLLBACK` succeeds, that first row error is returned with the table
unchanged.  Moreover under any oracle outcomes, a non-panicking result leaves
the table either exactly as it was or with exactly the whole batch appended —
never a proper subset of the batch. -/
theorem C3_insert_atomic (commitFail rollbackFail : Option Nat)
    (insFail : BlockMeta → Option Nat) (table block_meta : List BlockMeta) :
    ((∀ m ∈ block_meta, insFail m = none) → commitFail = none →
      blockmetadb_insert none none commitFail rollbackFail insFail table block_meta =
        .ok (table ++ block_meta)) ∧
    (∀ e, firstInsertErr insFail block_meta = some e → rollbackFail = none →
      blockmetadb_insert none none commitFail rollbackFail insFail table block_meta =
        .err e table) ∧
    (∀ prepFail beginFail t,
      blockmetadb_insert prepFail beginFail commitFail rollbackFail insFail table block_meta =
          .ok t → t = table ++ block_meta) ∧
    (∀ prepFail beginFail e t,
      blockmetadb_insert prepFail beginFail commitFail rollbackFail insFail table block_meta =
          .err e t → t = table) := by
  refine ⟨?_, ?_, ?_, ?_⟩
  · intro hall hc
    simp only [blockmetadb_insert, firstInsertErr_none_of_all insFail block_meta hall, hc]
  · intro e he hr
    simp only [blockmetadb_insert, he, hr]
  · intro prepFail beginFail t hok
    cases prepFail <;> cases beginFail <;>
      simp only [blockmetadb_insert] at hok <;>
      [skip; exact absurd hok (by simp); exact absurd hok (by simp);
        exact absurd hok (by simp)]
    cases hfe : firstInsertErr insFail block_meta <;> rw [hfe] at hok
    · cases commitFail <;> simp_all
    · cases rollbackFail <;> simp_all
  · intro prepFail beginFail e t herr
    cases prepFail <;> cases beginFail <;> simp only [blockmetadb_insert] at herr
    · cases hfe : firstInsertErr insFail block_meta <;> rw [hfe] at herr
      · cases commitFail <;> simp_all
      · cases rollbackFail <;> simp_all
    · simp_all
    · simp_all
    · simp_all

/-- C3 witness: a concrete two-row batch.  All inserts succeeding commits both
rows; the oracle failing on the second row with a successful rollback returns
error `7` and leaves the one-row table unchanged. -/
theorem C3_witness :
    blockmetadb_insert none none none none (fun _ => none)
        [⟨1, [0], 0, 0, 0⟩] [⟨2, [0], 0, 0, 0⟩, ⟨3, [0], 0, 0, 0⟩] =
      .ok [⟨1, [0], 0, 0, 0⟩, ⟨2, [0], 0, 0, 0⟩, ⟨3, [0], 0, 0, 0⟩] ∧
    blockmetadb_insert none none none none
        (fun m => if m.height = 3 then some 7 else none)
        [⟨1, [0], 0, 0, 0⟩] [⟨2, [0], 0, 0, 0⟩, ⟨3, [0], 0, 0, 0⟩] =
      .err 7 [⟨1, [0], 0, 0, 0⟩] :=
  ⟨(C3_insert_atomic none none (fun _ => none)
      [⟨1, [0], 0, 0, 0⟩] [⟨2, [0], 0, 0, 0⟩, ⟨3, [0], 0, 0, 0⟩]).1
      (by decide) rfl,
    (C3_insert_atomic none none (fun m => if m.height = 3 then some 7 else none)
      [⟨1, [0], 0, 0, 0⟩] [⟨2, [0], 0, 0, 0⟩, ⟨3, [0], 0, 0, 0⟩]).2.1
      7 (by decide) rfl⟩

/-- C4: when a row insert of the batch fails, a failing `ROLLBACK` makes
`blockmetadb_insert` panic, while a successful `ROLLBACK` returns the row's
error as an ordinary error with the table unchanged. -/
theorem C4_rollback_panic (commitFail : Option Nat) (insFail : BlockMeta → Option Nat)
    (table block_meta : List BlockMeta) (e : Nat)
    (hfe : firstInsertErr insFail block_meta = some e) :
    (∀ e', blockmetadb_insert none none commitFail (some e') insFail table block_meta =
      .panicked) ∧
    blockmetadb_insert none none commitFail none insFail table block_meta =
      .err e table := by
  constructor
  · intro e'
    simp only [blockmetadb_insert, hfe]
  · simp only [blockmetadb_insert, hfe]

/-- C4 witness: with the insert oracle failing on height `3` with error `7`,
a failing rollback (error `9`) panics and a successful rollback returns
error `7` with the table unchanged. -/
theorem C4_witness :
    firstInsertErr (fun m => if m.height = 3 then some 7 else none)
        [⟨2, [0], 0, 0, 0⟩, ⟨3, [0], 0, 0, 0⟩] = some 7 ∧
    blockmetadb_insert none none none (some 9)
        (fun m => if m.height = 3 then some 7 else none)
        [⟨1, [0], 0, 0, 0⟩] [⟨2, [0], 0, 0, 0⟩, ⟨3, [0], 0, 0, 0⟩] = .panicked ∧
    blockmetadb_insert none none none none
        (fun m => if m.height = 3 then some 7 else none)
        [⟨1, [0], 0, 0, 0⟩] [⟨2, [0], 0, 0, 0⟩, ⟨3, [0], 0, 0, 0⟩] =
      .err 7 [⟨1, [0], 0, 0, 0⟩] :=
  ⟨by decide,
    (C4_rollback_panic none (fun m => if m.height = 3 then some 7 else none)
      [⟨1, [0], 0, 0, 0⟩] [⟨2, [0], 0, 0, 0⟩, ⟨3, [0], 0, 0, 0⟩] 7 (by decide)).1 9,
    (C4_rollback_panic none (fun m => if m.height = 3 then some 7 else none)
      [⟨1, [0], 0, 0, 0⟩] [⟨2, [0], 0, 0, 0⟩, ⟨3, [0], 0, 0, 0⟩] 7 (by decide)).2⟩

/-! ## Claim C9 — precedence between the explicit hash fields and the header -/

/-- C9 (amended): `hash()` and `prev_hash()` give precedence to the embedded
block header: whenever the `header` field is non-empty and parses, both
accessors return the header-derived values, and only when `header()` is `None`
(the field empty, or the bytes unparseable) do they fall back to the explicit
`hash`/`prevHash` fields via `BlockHash::from_slice`. -/
theorem C9_header_precedence (read : List Nat → Option BlockHeader) (b : PBBlock) :
    (∀ hd, b.headerOpt read = some hd →
      b.hashAcc read = some hd.hashBytes ∧ b.prevHashAcc read = some hd.prev_block) ∧
    (b.headerOpt read = none →
      b.hashAcc read = BlockHash.from_slice b.hash ∧
      b.prevHashAcc read = BlockHash.from_slice b.prevHash) ∧
    (b.header = [] → b.headerOpt read = none) := by
  refine ⟨?_, ?_, ?_⟩
  · intro hd hhd
    constructor
    · simp only [PBBlock.hashAcc, hhd]
    · simp only [PBBlock.prevHashAcc, hhd]
  · intro hnone
    constructor
    · simp only [PBBlock.hashAcc, hnone]
    · simp only [PBBlock.prevHashAcc, hnone]
  · intro hempty
    simp [PBBlock.headerOpt, hempty]

/-- C9 witness: a concrete block whose header field is non-empty and whose
codec parses it; both accessors return the header-derived values. -/
theorem C9_witness :
    PBBlock.headerOpt (fun _ => some ⟨List.replicate 32 7, List.replicate 32 8⟩)
        ⟨10, List.replicate 32 1, List.replicate 32 2, [9], []⟩ =
      some ⟨List.replicate 32 7, List.replicate 32 8⟩ ∧
    PBBlock.hashAcc (fun _ => some ⟨List.replicate 32 7, List.replicate 32 8⟩)
        ⟨10, List.replicate 32 1, List.replicate 32 2, [9], []⟩ =
      some (List.replicate 32 7) ∧
    PBBlock.prevHashAcc (fun _ => some ⟨List.replicate 32 7, List.replicate 32 8⟩)
        ⟨10, List.replicate 32 1, List.replicate 32 2, [9], []⟩ =
      some (List.replicate 32 8) :=
  ⟨by decide,
    ((C9_header_precedence (fun _ => some ⟨List.replicate 32 7, List.replicate 32 8⟩)
        ⟨10, List.replicate 32 1, List.replicate 32 2, [9], []⟩).1
      ⟨List.replicate 32 7, List.replicate 32 8⟩ (by decide)).1,
    ((C9_header_precedence (fun _ => some ⟨List.replicate 32 7, List.replicate 32 8⟩)
        ⟨10, List.replicate 32 1, List.replicate 32 2, [9], []⟩).1
      ⟨List.replicate 32 7, List.replicate 32 8⟩ (by decide)).2⟩

/-- C9 counterexample: a block carrying a non-empty 32-byte explicit `hash`
field *and* an embedded header that parses.  The claim says `hash()` then
returns the explicit field's value; the code returns the header-derived hash
instead — the explicit field is the fallback, not the primary. -/
theorem C9_counterexample :
    (⟨10, List.replicate 32 1, List.replicate 32 2, [9], []⟩ : PBBlock).hash.length = 32 ∧
    PBBlock.headerOpt (fun _ => some ⟨List.replicate 32 7, List.replicate 32 8⟩)
        ⟨10, List.replicate 32 1, List.replicate 32 2, [9], []⟩ ≠ none ∧
    BlockHash.from_slice
        (⟨10, List.replicate 32 1, List.replicate 32 2, [9], []⟩ : PBBlock).hash =
      some (List.replicate 32 1) ∧
    PBBlock.hashAcc (fun _ => some ⟨List.replicate 32 7, List.replicate 32 8⟩)
        ⟨10, List.replicate 32 1, List.replicate 32 2, [9], []⟩ ≠
      some (List.replicate 32 1) := by
  refine ⟨by decide, by decide, by decide, by decide⟩

/-! ## Shared clean-run lemmas for the traversal loops -/

/-- Running the blob row loop over a clean prefix (every row parses to a block
of the row's height, which fits a `u32`, and the callback succeeds) advances
the callback state by folding over the prefix's decoded blocks. -/
theorem blockdbLoop_clean_advance {σ : Type} (parse : List Nat → Option PBBlock)
    (withRow : σ → PBBlock → Except SqErr σ) (f : σ → PBBlock → σ)
    (hcb : ∀ s b, withRow s b = .ok (f s b)) :
    ∀ (pre rest : List CompactBlockRow) (s : σ),
      (∀ p ∈ pre, ∃ b, parse p.data = some b ∧ b.height = p.height ∧ p.height < 2 ^ 32) →
      blockdbLoop parse withRow (pre ++ rest) s =
        blockdbLoop parse withRow rest
          (List.foldl f s (pre.filterMap fun p => parse p.data)) := by
  intro pre
  induction pre with
  | nil => intro rest s _; rfl
  | cons p pre ih =>
    intro rest s hclean
    obtain ⟨b, hb, hbh, hlt⟩ := hclean p (List.mem_cons_self p pre)
    have hblt : b.height < 2 ^ 32 := by rw [hbh]; exact hlt
    have hacc : b.heightAcc = some b.height := by
      unfold PBBlock.heightAcc
      rw [if_pos hblt]
    simp only [List.cons_append, blockdbLoop, hb, hacc, hbh, if_pos rfl, hcb,
      List.filterMap_cons, List.foldl_cons]
    exact ih rest (f s b) fun x hx => hclean x (List.mem_cons_of_mem p hx)

/-- Running the filesystem row loop over a clean prefix (every metadata row's
file opens and parses to a block of the row's height, which fits a `u32`, and
the callback succeeds) advances the callback state by folding over the
prefix's decoded blocks. -/
theorem fsblockdbLoop_clean_advance {σ : Type}
    (files : Nat → List Nat → Option (List Nat)) (parse : List Nat → Option PBBlock)
    (withBlock : σ → PBBlock → Except SqErr σ) (f : σ → PBBlock → σ)
    (hcb : ∀ s b, withBlock s b = .ok (f s b)) :
    ∀ (pre rest : List BlockMeta) (s : σ),
      (∀ p ∈ pre, ∃ bytes b, files p.height p.blockHash = some bytes ∧
        parse bytes = some b ∧ b.height = p.height ∧ p.height < 2 ^ 32) →
      fsblockdbLoop files parse withBlock (pre ++ rest) s =
        fsblockdbLoop files parse withBlock rest
          (List.foldl f s
            (pre.filterMap fun p => (files p.height p.blockHash).bind parse)) := by
  intro pre
  induction pre with
  | nil => intro rest s _; rfl
  | cons p pre ih =>
    intro rest s hclean
    obtain ⟨bytes, b, hf, hb, hbh, hlt⟩ := hclean p (List.mem_cons_self p pre)
    have hblt : b.height < 2 ^ 32 := by rw [hbh]; exact hlt
    have hacc : b.heightAcc = some b.height := by
      unfold PBBlock.heightAcc
      rw [if_pos hblt]
    simp only [List.cons_append, fsblockdbLoop, hf, hb, hacc, hbh, if_pos rfl, hcb,
      List.filterMap_cons, List.foldl_cons, Option.bind]
    exact ih rest (f s b) fun x hx => hclean x (List.mem_cons_of_mem p hx)

/-! ## Characterization of the ordered query -/

theorem orderedQuery_sorted_le (hOf : α → Nat) (l : List α) (lsh : Nat) (lim : Option Nat) :
    List.Pairwise (fun x y => hOf x ≤ hOf y) (orderedQuery hOf l lsh lim) :=
  (sortByKey_pairwise hOf _).sublist (List.take_sublist _ _)

theorem orderedQuery_nodup_keys (hOf : α → Nat) (l : List α) (lsh : Nat) (lim : Option Nat)
    (hnd : (l.map hOf).Nodup) : ((orderedQuery hOf l lsh lim).map hOf).Nodup := by
  have h1 : ((l.filter fun r => decide (lsh < hOf r)).map hOf).Nodup :=
    hnd.sublist ((List.filter_sublist l).map hOf)
  have h2 : ((sortByKey hOf (l.filter fun r => decide (lsh < hOf r))).map hOf).Nodup :=
    (((sortByKey_perm hOf _).map hOf).nodup_iff).mpr h1
  exact h2.sublist ((List.take_sublist _ _).map hOf)

theorem orderedQuery_pairwise_lt (hOf : α → Nat) (l : List α) (lsh : Nat) (lim : Option Nat)
    (hnd : (l.map hOf).Nodup) :
    List.Pairwise (· < ·) ((orderedQuery hOf l lsh lim).map hOf) := by
  have hle : List.Pairwise (fun x y => hOf x ≤ hOf y) (orderedQuery hOf l lsh lim) :=
    orderedQuery_sorted_le hOf l lsh lim
  have hne : List.Pairwise (fun x y => hOf x ≠ hOf y) (orderedQuery hOf l lsh lim) :=
    List.pairwise_map.mp (orderedQuery_nodup_keys hOf l lsh lim hnd)
  refine List.pairwise_map.mpr ?_
  exact (hle.and hne).imp fun h => Nat.lt_of_le_of_ne h.1 h.2

theorem orderedQuery_mem_sound (hOf : α → Nat) (l : List α) (lsh : Nat) (lim : Option Nat)
    (r : α) (hr : r ∈ orderedQuery hOf l lsh lim) : r ∈ l ∧ lsh < hOf r := by
  have h1 : r ∈ sortByKey hOf (l.filter fun r => decide (lsh < hOf r)) :=
    (List.take_sublist _ _).mem hr
  have h2 : r ∈ l.filter fun r => decide (lsh < hOf r) :=
    (sortByKey_perm hOf _).mem_iff.mp h1
  have h3 := List.mem_filter.mp h2
  exact ⟨h3.1, of_decide_eq_true h3.2⟩

theorem filter_length_le_u32max (hOf : α → Nat) (l : List α) (lsh : Nat)
    (hnd : (l.map hOf).Nodup) (hlt : ∀ r ∈ l, hOf r < 2 ^ 32) :
    (l.filter fun r => decide (lsh < hOf r)).length ≤ 2 ^ 32 - 1 := by
  set fl := l.filter fun r => decide (lsh < hOf r) with hfl
  have hknd : (fl.map hOf).Nodup := hnd.sublist ((List.filter_sublist l).map hOf)
  have hsub : (fl.map hOf).toFinset ⊆ Finset.Ioo lsh (2 ^ 32) := by
    intro k hk
    obtain ⟨r, hrfl, rfl⟩ := List.mem_map.mp (List.mem_toFinset.mp hk)
    have hmem := List.mem_filter.mp hrfl
    exact Finset.mem_Ioo.mpr ⟨of_decide_eq_true hmem.2, hlt r hmem.1⟩
  have hcard : (fl.map hOf).length ≤ (Finset.Ioo lsh (2 ^ 32)).card := by
    rw [← List.toFinset_card_of_nodup hknd]
    exact Finset.card_le_card hsub
  rw [List.length_map] at hcard
  refine Nat.le_trans hcard ?_
  rw [Nat.card_Ioo]
  omega

theorem orderedQuery_complete_nolimit (hOf : α → Nat) (l : List α) (lsh : Nat)
    (hnd : (l.map hOf).Nodup) (hlt : ∀ r ∈ l, hOf r < 2 ^ 32)
    (r : α) (hr : r ∈ l) (hlsh : lsh < hOf r) : r ∈ orderedQuery hOf l lsh none := by
  have hlen : (sortByKey hOf (l.filter fun r => decide (lsh < hOf r))).length ≤ 2 ^ 32 - 1 := by
    rw [(sortByKey_perm hOf _).length_eq]
    exact filter_length_le_u32max hOf l lsh hnd hlt
  have htake : orderedQuery hOf l lsh none =
      sortByKey hOf (l.filter fun r => decide (lsh < hOf r)) := by
    unfold orderedQuery
    exact List.take_of_length_le hlen
  rw [htake]
  refine (sortByKey_perm hOf _).mem_iff.mpr ?_
  exact List.mem_filter.mpr ⟨hr, decide_eq_true hlsh⟩

theorem orderedQuery_length_limit (hOf : α → Nat) (l : List α) (lsh : Nat) (n : Nat) :
    (orderedQuery hOf l lsh (some n)).length =
      min n (l.filter fun r => decide (lsh < hOf r)).length := by
  unfold orderedQuery
  rw [List.length_take, (sortByKey_perm hOf _).length_eq, Option.getD_some]

/-! ## Claim C2 — height mismatch is a fail-fast `CorruptedData` error -/

/-- C2: in both cache traversals, when the rows before position `i` of the
query result are self-consistent (and the callback succeeds on them) and the
row at position `i` decodes to a block whose payload height disagrees with the
row's stored height key, the traversal returns the `CorruptedData` error built
from the two heights, and the callback state is exactly the fold over the rows
preceding the mismatch — the callback is never invoked for the mismatching row
or any later row. -/
theorem C2_corruption_fail_fast :
    (∀ (σ : Type) (parse : List Nat → Option PBBlock) (cache : List CompactBlockRow)
      (lsh : Nat) (lim : Option Nat) (withRow : σ → PBBlock → Except SqErr σ)
      (f : σ → PBBlock → σ) (s0 : σ) (pre : List CompactBlockRow)
      (r : CompactBlockRow) (post : List CompactBlockRow) (b : PBBlock),
      orderedQuery CompactBlockRow.height cache lsh lim = pre ++ r :: post →
      (∀ p ∈ pre, ∃ b', parse p.data = some b' ∧ b'.height = p.height ∧ p.height < 2 ^ 32) →
      (∀ s b', withRow s b' = .ok (f s b')) →
      parse r.data = some b → b.height < 2 ^ 32 → b.height ≠ r.height →
      blockdb_with_blocks parse cache lsh lim withRow s0 =
        .err (.CorruptedData b.height r.height)
          (List.foldl f s0 (pre.filterMap fun p => parse p.data))) ∧
    (∀ (σ : Type) (files : Nat → List Nat → Option (List Nat))
      (parse : List Nat → Option PBBlock) (meta : List BlockMeta)
      (lsh : Nat) (lim : Option Nat) (withBlock : σ → PBBlock → Except SqErr σ)
      (f : σ → PBBlock → σ) (s0 : σ) (pre : List BlockMeta)
      (m : BlockMeta) (post : List BlockMeta) (bytes : List Nat) (b : PBBlock),
      orderedQuery BlockMeta.height meta lsh lim = pre ++ m :: post →
      (∀ p ∈ pre, ∃ bytes' b', files p.height p.blockHash = some bytes' ∧
        parse bytes' = some b' ∧ b'.height = p.height ∧ p.height < 2 ^ 32) →
      (∀ s b', withBlock s b' = .ok (f s b')) →
      files m.height m.blockHash = some bytes → parse bytes = some b →
      b.height < 2 ^ 32 → b.height ≠ m.height →
      fsblockdb_with_blocks files parse meta lsh lim withBlock s0 =
        .err (.CorruptedData b.height m.height)
          (List.foldl f s0
            (pre.filterMap fun p => (files p.height p.blockHash).bind parse))) := by
  constructor
  · intro σ parse cache lsh lim withRow f s0 pre r post b hq hpre hcb hpb hblt hne
    unfold blockdb_with_blocks
    rw [hq, blockdbLoop_clean_advance parse withRow f hcb pre (r :: post) s0 hpre]
    have hacc : b.heightAcc = some b.height := by
      unfold PBBlock.heightAcc
      rw [if_pos hblt]
    simp only [blockdbLoop, hpb, hacc, if_neg hne]
  · intro σ files parse meta lsh lim withBlock f s0 pre m post bytes b hq hpre hcb hfm hpb
      hblt hne
    unfold fsblockdb_with_blocks
    rw [hq, fsblockdbLoop_clean_advance files parse withBlock f hcb pre (m :: post) s0 hpre]
    have hacc : b.heightAcc = some b.height := by
      unfold PBBlock.heightAcc
      rw [if_pos hblt]
    simp only [fsblockdbLoop, hfm, hpb, hacc, if_neg hne]

/-- C2 witness: two-row caches for both backends in which the second row
decodes to a block of height `99` against a stored height of `2`; both
traversals stop with `CorruptedData 99 2` after the callback has seen exactly
the first row's block. -/
theorem C2_witness :
    blockdb_with_blocks
        (fun d => if d = [1] then some ⟨1, [], [], [], []⟩
          else if d = [2] then some ⟨99, [], [], [], []⟩ else none)
        [⟨1, [1]⟩, ⟨2, [2]⟩] 0 none
        (fun (s : List PBBlock) b => Except.ok (s ++ [b])) [] =
      .err (.CorruptedData 99 2) [⟨1, [], [], [], []⟩] ∧
    fsblockdb_with_blocks
        (fun h _ => if h = 1 then some [1] else if h = 2 then some [2] else none)
        (fun d => if d = [1] then some ⟨1, [], [], [], []⟩
          else if d = [2] then some ⟨99, [], [], [], []⟩ else none)
        [⟨1, [5], 0, 0, 0⟩, ⟨2, [5], 0, 0, 0⟩] 0 none
        (fun (s : List PBBlock) b => Except.ok (s ++ [b])) [] =
      .err (.CorruptedData 99 2) [⟨1, [], [], [], []⟩] :=
  ⟨C2_corruption_fail_fast.1 (List PBBlock)
      (fun d => if d = [1] then some ⟨1, [], [], [], []⟩
        else if d = [2] then some ⟨99, [], [], [], []⟩ else none)
      [⟨1, [1]⟩, ⟨2, [2]⟩] 0 none
      (fun s b => Except.ok (s ++ [b])) (fun s b => s ++ [b]) []
      [⟨1, [1]⟩] ⟨2, [2]⟩ [] ⟨99, [], [], [], []⟩
      (by decide)
      (by
        intro p hp
        simp only [List.mem_singleton] at hp
        subst hp
        exact ⟨⟨1, [], [], [], []⟩, rfl, rfl, by norm_num⟩)
      (fun s b => rfl) rfl (by norm_num) (by decide),
    C2_corruption_fail_fast.2 (List PBBlock)
      (fun h _ => if h = 1 then some [1] else if h = 2 then some [2] else none)
      (fun d => if d = [1] then some ⟨1, [], [], [], []⟩
        else if d = [2] then some ⟨99, [], [], [], []⟩ else none)
      [⟨1, [5], 0, 0, 0⟩, ⟨2, [5], 0, 0, 0⟩] 0 none
      (fun s b => Except.ok (s ++ [b])) (fun s b => s ++ [b]) []
      [⟨1, [5], 0, 0, 0⟩] ⟨2, [5], 0, 0, 0⟩ [] [2] ⟨99, [], [], [], []⟩
      (by decide)
      (by
        intro p hp
        simp only [List.mem_singleton] at hp
        subst hp
        exact ⟨[1], ⟨1, [], [], [], []⟩, rfl, rfl, rfl, by norm_num⟩)
      (fun s b => rfl) rfl rfl (by norm_num) (by decide)⟩

/-! ## Claim C10 — `height()` panics on a `u64` height above `u32::MAX` -/

/-- C10: `CompactBlock::height()` panics (rather than returning an error) on
any decoded block whose protobuf `u64` height exceeds `u32::MAX`; and a blob
cache traversal whose query result reaches a row whose payload parses to such
a block aborts through that panic — after the callback has consumed the clean
rows before it — instead of returning a `CorruptedData` error. -/
theorem C10_height_overflow_panic :
    (∀ b : PBBlock, 2 ^ 32 ≤ b.height → b.heightAcc = none) ∧
    (∀ (σ : Type) (parse : List Nat → Option PBBlock) (cache : List CompactBlockRow)
      (lsh : Nat) (lim : Option Nat) (withRow : σ → PBBlock → Except SqErr σ)
      (f : σ → PBBlock → σ) (s0 : σ) (pre : List CompactBlockRow)
      (r : CompactBlockRow) (post : List CompactBlockRow) (b : PBBlock),
      orderedQuery CompactBlockRow.height cache lsh lim = pre ++ r :: post →
      (∀ p ∈ pre, ∃ b', parse p.data = some b' ∧ b'.height = p.height ∧ p.height < 2 ^ 32) →
      (∀ s b', withRow s b' = .ok (f s b')) →
      parse r.data = some b → 2 ^ 32 ≤ b.height →
      blockdb_with_blocks parse cache lsh lim withRow s0 =
        .panicked (List.foldl f s0 (pre.filterMap fun p => parse p.data))) := by
  constructor
  · intro b hb
    unfold PBBlock.heightAcc
    rw [if_neg (Nat.not_lt.mpr hb)]
  · intro σ parse cache lsh lim withRow f s0 pre r post b hq hpre hcb hpb hover
    unfold blockdb_with_blocks
    rw [hq, blockdbLoop_clean_advance parse withRow f hcb pre (r :: post) s0 hpre]
    have hacc : b.heightAcc = none := by
      unfold PBBlock.heightAcc
      rw [if_neg (Nat.not_lt.mpr hover)]
    simp only [blockdbLoop, hpb, hacc]

/-- C10 witness: a block with height field `2 ^ 32` makes `height()` panic,
and a one-row cache whose payload decodes to it makes the traversal end in a
panic with the callback never invoked. -/
theorem C10_witness :
    PBBlock.heightAcc ⟨2 ^ 32, [], [], [], []⟩ = none ∧
    blockdb_with_blocks (fun _ => some ⟨2 ^ 32, [], [], [], []⟩)
        [⟨7, [1]⟩] 0 none (fun (s : List PBBlock) b => Except.ok (s ++ [b])) [] =
      .panicked [] :=
  ⟨C10_height_overflow_panic.1 ⟨2 ^ 32, [], [], [], []⟩ (by norm_num),
    C10_height_overflow_panic.2 (List PBBlock)
      (fun _ => some ⟨2 ^ 32, [], [], [], []⟩) [⟨7, [1]⟩] 0 none
      (fun s b => Except.ok (s ++ [b])) (fun s b => s ++ [b]) []
      [] ⟨7, [1]⟩ [] ⟨2 ^ 32, [], [], [], []⟩
      (by decide) (by intro p hp; cases hp) (fun s b => rfl) rfl (by norm_num)⟩

/-! ## Claim C8 — the traversal visits exactly the expected blocks, in order -/

/-- C8: for both backends, under distinct `u32` row heights, rows that all
decode to blocks matching their stored heights, and a callback that always
succeeds: the traversal completes normally with the callback state equal to
the fold over the decoded blocks of the query result; the visited heights are
strictly ascending (so each block is visited exactly once); every visited row
comes from the cache with height strictly above `last_scanned_height`; with no
limit every such cache row is visited; and with limit `n` exactly
`min n (number of rows above the floor)` rows are visited. -/
theorem C8_traversal_contract :
    (∀ (σ : Type) (parse : List Nat → Option PBBlock) (cache : List CompactBlockRow)
      (lsh : Nat) (lim : Option Nat) (withRow : σ → PBBlock → Except SqErr σ)
      (f : σ → PBBlock → σ) (s0 : σ),
      (cache.map CompactBlockRow.height).Nodup →
      (∀ r ∈ cache, r.height < 2 ^ 32) →
      (∀ r ∈ orderedQuery CompactBlockRow.height cache lsh lim,
        ∃ b, parse r.data = some b ∧ b.height = r.height) →
      (∀ s b, withRow s b = .ok (f s b)) →
      blockdb_with_blocks parse cache lsh lim withRow s0 =
        .ok (List.foldl f s0
          ((orderedQuery CompactBlockRow.height cache lsh lim).filterMap
            fun r => parse r.data)) ∧
      List.Pairwise (· < ·)
        ((orderedQuery CompactBlockRow.height cache lsh lim).map CompactBlockRow.height) ∧
      (∀ r ∈ orderedQuery CompactBlockRow.height cache lsh lim,
        r ∈ cache ∧ lsh < r.height) ∧
      (lim = none → ∀ r ∈ cache, lsh < r.height →
        r ∈ orderedQuery CompactBlockRow.height cache lsh lim) ∧
      (∀ n, lim = some n → (orderedQuery CompactBlockRow.height cache lsh lim).length =
        min n (cache.filter fun r => decide (lsh < r.height)).length)) ∧
    (∀ (σ : Type) (files : Nat → List Nat → Option (List Nat))
      (parse : List Nat → Option PBBlock) (meta : List BlockMeta)
      (lsh : Nat) (lim : Option Nat) (withBlock : σ → PBBlock → Except SqErr σ)
      (f : σ → PBBlock → σ) (s0 : σ),
      (meta.map BlockMeta.height).Nodup →
      (∀ m ∈ meta, m.height < 2 ^ 32) →
      (∀ m ∈ orderedQuery BlockMeta.height meta lsh lim,
        ∃ bytes b, files m.height m.blockHash = some bytes ∧ parse bytes = some b ∧
          b.height = m.height) →
      (∀ s b, withBlock s b = .ok (f s b)) →
      fsblockdb_with_blocks files parse meta lsh lim withBlock s0 =
        .ok (List.foldl f s0
          ((orderedQuery BlockMeta.height meta lsh lim).filterMap
            fun m => (files m.height m.blockHash).bind parse)) ∧
      List.Pairwise (· < ·)
        ((orderedQuery BlockMeta.height meta lsh lim).map BlockMeta.height) ∧
      (∀ m ∈ orderedQuery BlockMeta.height meta lsh lim,
        m ∈ meta ∧ lsh < m.height) ∧
      (lim = none → ∀ m ∈ meta, lsh < m.height →
        m ∈ orderedQuery BlockMeta.height meta lsh lim) ∧
      (∀ n, lim = some n → (orderedQuery BlockMeta.height meta lsh lim).length =
        min n (meta.filter fun m => decide (lsh < m.height)).length)) := by
  constructor
  · intro σ parse cache lsh lim withRow f s0 hnd hlt hparse hcb
    refine ⟨?_, orderedQuery_pairwise_lt _ cache lsh lim hnd,
      fun r hr => orderedQuery_mem_sound _ cache lsh lim r hr,
      fun hnone r hr hlsh => hnone ▸ orderedQuery_complete_nolimit _ cache lsh hnd hlt r hr hlsh,
      fun n hn => hn ▸ orderedQuery_length_limit _ cache lsh n⟩
    unfold blockdb_with_blocks
    have hclean : ∀ p ∈ orderedQuery CompactBlockRow.height cache lsh lim,
        ∃ b, parse p.data = some b ∧ b.height = p.height ∧ p.height < 2 ^ 32 := by
      intro p hp
      obtain ⟨b, hb, hbh⟩ := hparse p hp
      exact ⟨b, hb, hbh, hlt p (orderedQuery_mem_sound _ cache lsh lim p hp).1⟩
    have := blockdbLoop_clean_advance parse withRow f hcb
      (orderedQuery CompactBlockRow.height cache lsh lim) [] s0 hclean
    rw [List.append_nil] at this
    rw [this]
    rfl
  · intro σ files parse meta lsh lim withBlock f s0 hnd hlt hparse hcb
    refine ⟨?_, orderedQuery_pairwise_lt _ meta lsh lim hnd,
      fun m hm => orderedQuery_mem_sound _ meta lsh lim m hm,
      fun hnone m hm hlsh => hnone ▸ orderedQuery_complete_nolimit _ meta lsh hnd hlt m hm hlsh,
      fun n hn => hn ▸ orderedQuery_length_limit _ meta lsh n⟩
    unfold fsblockdb_with_blocks
    have hclean : ∀ p ∈ orderedQuery BlockMeta.height meta lsh lim,
        ∃ bytes b, files p.height p.blockHash = some bytes ∧ parse bytes = some b ∧
          b.height = p.height ∧ p.height < 2 ^ 32 := by
      intro p hp
      obtain ⟨bytes, b, hf, hb, hbh⟩ := hparse p hp
      exact ⟨bytes, b, hf, hb, hbh, hlt p (orderedQuery_mem_sound _ meta lsh lim p hp).1⟩
    have := fsblockdbLoop_clean_advance files parse withBlock f hcb
      (orderedQuery BlockMeta.height meta lsh lim) [] s0 hclean
    rw [List.append_nil] at this
    rw [this]
    rfl

/-- C8 witness: a three-row blob cache with heights `5, 1, 3` (inserted out of
order) traversed from floor `1` without a limit visits exactly the blocks of
heights `3` then `5`; the same traversal with limit `1` visits exactly one
row.  The filesystem backend on a two-row index behaves alike. -/
theorem C8_witness :
    blockdb_with_blocks (fun d => some ⟨d.headD 0, [], [], [], []⟩)
        [⟨5, [5]⟩, ⟨1, [1]⟩, ⟨3, [3]⟩] 1 none
        (fun (s : List PBBlock) b => Except.ok (s ++ [b])) [] =
      .ok [⟨3, [], [], [], []⟩, ⟨5, [], [], [], []⟩] ∧
    (orderedQuery CompactBlockRow.height [⟨5, [5]⟩, ⟨1, [1]⟩, ⟨3, [3]⟩] 1 (some 1)).length =
      min 1 2 ∧
    fsblockdb_with_blocks (fun h _ => some [h]) (fun d => some ⟨d.headD 0, [], [], [], []⟩)
        [⟨2, [9], 0, 0, 0⟩, ⟨1, [9], 0, 0, 0⟩] 0 none
        (fun (s : List PBBlock) b => Except.ok (s ++ [b])) [] =
      .ok [⟨1, [], [], [], []⟩, ⟨2, [], [], [], []⟩] := by
  have h1 := C8_traversal_contract.1 (List PBBlock)
    (fun d => some ⟨d.headD 0, [], [], [], []⟩)
    [⟨5, [5]⟩, ⟨1, [1]⟩, ⟨3, [3]⟩] 1 none
    (fun s b => Except.ok (s ++ [b])) (fun s b => s ++ [b]) []
    (by decide) (by decide)
    (by
      intro r hr
      exact ⟨⟨r.height, [], [], [], []⟩, by
        have hm := (List.mem_filter.mp
          ((sortByKey_perm _ _).mem_iff.mp ((List.take_sublist _ _).mem hr))).1
        fin_cases hm <;> exact ⟨rfl, rfl⟩⟩)
    (fun s b => rfl)
  have h2 := C8_traversal_contract.1 (List PBBlock)
    (fun d => some ⟨d.headD 0, [], [], [], []⟩)
    [⟨5, [5]⟩, ⟨1, [1]⟩, ⟨3, [3]⟩] 1 (some 1)
    (fun s b => Except.ok (s ++ [b])) (fun s b => s ++ [b]) []
    (by decide) (by decide)
    (by
      intro r hr
      exact ⟨⟨r.height, [], [], [], []⟩, by
        have hm := (List.mem_filter.mp
          ((sortByKey_perm _ _).mem_iff.mp ((List.take_sublist _ _).mem hr))).1
        fin_cases hm <;> exact ⟨rfl, rfl⟩⟩)
    (fun s b => rfl)
  have h3 := C8_traversal_contract.2 (List PBBlock)
    (fun h _ => some [h]) (fun d => some ⟨d.headD 0, [], [], [], []⟩)
    [⟨2, [9], 0, 0, 0⟩, ⟨1, [9], 0, 0, 0⟩] 0 none
    (fun s b => Except.ok (s ++ [b])) (fun s b => s ++ [b]) []
    (by decide) (by decide)
    (by
      intro m hm
      exact ⟨[m.height], ⟨m.height, [], [], [], []⟩, rfl, rfl, rfl⟩)
    (fun s b => rfl)
  refine ⟨?_, ?_, ?_⟩
  · rw [h1.1]; decide
  · rw [h2.2.2.2.2 1 rfl]; decide
  · rw [h3.1]; decide

/-! ## Claim C6 — the validator reports the first break in the hash chain -/

theorem validateLoop_append :
    ∀ (pre rest : List SBlock) (e : Option Nat), linksOk e pre = true →
      validateLoop (pre ++ rest) e = validateLoop rest (expectAfter e pre) := by
  intro pre
  induction pre with
  | nil => intro rest e _; rfl
  | cons b bs ih =>
    intro rest e hok
    cases e with
    | none =>
      simp only [List.cons_append, validateLoop]
      exact ih rest (some b.hash) hok
    | some ph =>
      simp only [linksOk, Bool.and_eq_true, decide_eq_true_eq] at hok
      simp only [List.cons_append, validateLoop, if_pos hok.1]
      exact ih rest (some b.hash) hok.2

/-- C6: if the validator's walk is `pre ++ bad :: post` where every hash link
along `pre` (starting from the wallet tip's hash, when present) holds, the
expectation entering `bad` is the hash `ph` of its predecessor (or of the
wallet tip when `pre` is empty), and `bad.prevHash ≠ ph`, then `validate`
fails with an invalid-chain error whose lower bound is exactly `bad`'s
height — the first height at which continuity breaks. -/
theorem C6_validate_first_break (cache : List SBlock) (tip : Option (Nat × Nat))
    (pre : List SBlock) (bad : SBlock) (post : List SBlock) (ph : Nat)
    (hw : validationWalk cache tip = pre ++ bad :: post)
    (hok : linksOk (initialExpect tip) pre = true)
    (he : expectAfter (initialExpect tip) pre = some ph)
    (hne : bad.prevHash ≠ ph) :
    validate_chain cache tip = some (.invalidChain bad.height) := by
  unfold validate_chain
  rw [hw, validateLoop_append pre (bad :: post) (initialExpect tip) hok, he]
  simp only [validateLoop, if_neg hne]

/-- C6 witness: with wallet tip `(11, hash 102)` and a cache holding blocks
`12` (prevHash `102`, hash `103`) and `13` (prevHash `555`), the reorg inside
the cache is reported at height `13`; and a cache holding block `12` with
prevHash `999` not matching the tip is reported at the boundary height `12`. -/
theorem C6_witness :
    validate_chain [⟨13, 104, 555, []⟩, ⟨12, 103, 102, []⟩] (some (11, 102)) =
      some (.invalidChain 13) ∧
    validate_chain [⟨12, 103, 999, []⟩] (some (11, 102)) =
      some (.invalidChain 12) :=
  ⟨C6_validate_first_break [⟨13, 104, 555, []⟩, ⟨12, 103, 102, []⟩] (some (11, 102))
      [⟨12, 103, 102, []⟩] ⟨13, 104, 555, []⟩ [] 103
      (by decide) (by decide) (by decide) (by decide),
    C6_validate_first_break [⟨12, 103, 999, []⟩] (some (11, 102))
      [] ⟨12, 103, 999, []⟩ [] 102
      (by decide) (by decide) (by decide) (by decide)⟩

/-! ## Claim C5 — scanning rejects a height gap after the last good block -/

/-- C5: starting from an empty wallet with activation height `H ≥ 1`, scanning
a cache holding only block `H` succeeds and advances the checkpoint to
`(H, g1)` with block `H`'s notes recorded; scanning a cache holding blocks
`H` and `H + 2` (height `H + 1` absent) from that wallet then fails with a
block-height-discontinuity error naming `H + 1` (expected) and `H + 2`
(found), and leaves the wallet — checkpoint and notes — unchanged at `H`. -/
theorem C5_scan_sequential (oracle : Nat → Option (Nat × Nat))
    (H g1 g2 p1 p2 : Nat) (o1 o2 : List Nat) (hH : 1 ≤ H) :
    scan_cached_blocks oracle H [⟨H, g1, p1, o1⟩] ⟨[], []⟩ none =
      (⟨[(H, g1)], (o1.filterMap oracle).map fun av => ⟨av.1, av.2, H⟩⟩, none) ∧
    checkpointOf ⟨[(H, g1)], (o1.filterMap oracle).map fun av => ⟨av.1, av.2, H⟩⟩ =
      some (H, g1) ∧
    scan_cached_blocks oracle H [⟨H, g1, p1, o1⟩, ⟨H + 2, g2, p2, o2⟩]
        ⟨[(H, g1)], (o1.filterMap oracle).map fun av => ⟨av.1, av.2, H⟩⟩ none =
      (⟨[(H, g1)], (o1.filterMap oracle).map fun av => ⟨av.1, av.2, H⟩⟩,
        some (.blockHeightDiscontinuity (H + 1) (H + 2))) := by
  have hd1 : decide (H - 1 < H) = true := decide_eq_true (by omega)
  have hsub : H - 1 + 1 = H := by omega
  refine ⟨?_, rfl, ?_⟩
  · show scanLoop oracle
        (orderedQuery SBlock.height [⟨H, g1, p1, o1⟩] (H - 1) none) (H - 1) ⟨[], []⟩ = _
    have hq1 : orderedQuery SBlock.height [⟨H, g1, p1, o1⟩] (H - 1) none =
        [⟨H, g1, p1, o1⟩] := by
      unfold orderedQuery
      simp only [List.filter_cons, List.filter_nil, hd1, if_true]
      rw [List.take_of_length_le
        (by norm_num [sortByKey, sortInsert, Option.getD_none])]
      rfl
    rw [hq1]
    simp only [scanLoop, hsub, if_pos rfl, scanBlock]
    rfl
  · show scanLoop oracle
        (orderedQuery SBlock.height [⟨H, g1, p1, o1⟩, ⟨H + 2, g2, p2, o2⟩] H none) H
        ⟨[(H, g1)], (o1.filterMap oracle).map fun av => ⟨av.1, av.2, H⟩⟩ = _
    have hq2 : orderedQuery SBlock.height [⟨H, g1, p1, o1⟩, ⟨H + 2, g2, p2, o2⟩] H none =
        [⟨H + 2, g2, p2, o2⟩] := by
      unfold orderedQuery
      have hd2 : decide (H < H) = false := by simp
      have hd3 : decide (H < H + 2) = true := decide_eq_true (by omega)
      simp only [List.filter_cons, List.filter_nil, hd2, hd3, if_true,
        Bool.false_eq_true, if_false]
      rw [List.take_of_length_le
        (by norm_num [sortByKey, sortInsert, Option.getD_none])]
      rfl
    rw [hq2]
    simp only [scanLoop, if_neg (show ¬((⟨H + 2, g2, p2, o2⟩ : SBlock).height = H + 1) by
      show ¬(H + 2 = H + 1); omega)]

/-- C5 witness: concrete instance with `H = 10`: the first scan commits block
`10` (one note of value `5`), the second fails naming expected `11`, found
`12`, leaving the checkpoint at `10`. -/
theorem C5_witness :
    scan_cached_blocks (fun d => if d = 1 then some (0, 5) else none) 10
        [⟨10, 101, 100, [1]⟩] ⟨[], []⟩ none =
      (⟨[(10, 101)], [⟨0, 5, 10⟩]⟩, none) ∧
    scan_cached_blocks (fun d => if d = 1 then some (0, 5) else none) 10
        [⟨10, 101, 100, [1]⟩, ⟨12, 103, 102, [1]⟩] ⟨[(10, 101)], [⟨0, 5, 10⟩]⟩ none =
      (⟨[(10, 101)], [⟨0, 5, 10⟩]⟩,
        some (.blockHeightDiscontinuity 11 12)) :=
  ⟨(C5_scan_sequential (fun d => if d = 1 then some (0, 5) else none)
      10 101 103 100 102 [1] [1] (by norm_num)).1,
    (C5_scan_sequential (fun d => if d = 1 then some (0, 5) else none)
      10 101 103 100 102 [1] [1] (by norm_num)).2.2⟩

/-! ## Claim C7 — balances across scanning, rewinding and re-scanning -/

/-- C7: an account `a` receives `v1` in block `H` and `v2` in block `H + 1`
(two sequentially scanned blocks).  After scanning both, the balance is
`v1 + v2`; rewinding to `H + 1` (at the checkpoint) is a no-op; rewinding to
`H` drops the second block's note, leaving balance `v1`; rewinding further to
`H - 1` (below the first block) leaves balance `0`; and re-scanning the cache
after the rewind to `H` restores the wallet — and the balance `v1 + v2` —
exactly. -/
theorem C7_rewind_balances (oracle : Nat → Option (Nat × Nat))
    (H g1 g2 p1 a v1 v2 depth : Nat) (o1 o2 : List Nat)
    (hH : 1 ≤ H) (hdep : 1 ≤ depth)
    (ho1 : o1.filterMap oracle = [(a, v1)]) (ho2 : o2.filterMap oracle = [(a, v2)]) :
    scan_cached_blocks oracle H [⟨H, g1, p1, o1⟩, ⟨H + 1, g2, g1, o2⟩] ⟨[], []⟩ none =
      (⟨[(H, g1), (H + 1, g2)], [⟨a, v1, H⟩, ⟨a, v2, H + 1⟩]⟩, none) ∧
    get_balance ⟨[(H, g1), (H + 1, g2)], [⟨a, v1, H⟩, ⟨a, v2, H + 1⟩]⟩ a = v1 + v2 ∧
    rewind_to_height depth ⟨[(H, g1), (H + 1, g2)], [⟨a, v1, H⟩, ⟨a, v2, H + 1⟩]⟩
        (H + 1) =
      .ok ⟨[(H, g1), (H + 1, g2)], [⟨a, v1, H⟩, ⟨a, v2, H + 1⟩]⟩ ∧
    rewind_to_height depth ⟨[(H, g1), (H + 1, g2)], [⟨a, v1, H⟩, ⟨a, v2, H + 1⟩]⟩ H =
      .ok ⟨[(H, g1)], [⟨a, v1, H⟩]⟩ ∧
    get_balance ⟨[(H, g1)], [⟨a, v1, H⟩]⟩ a = v1 ∧
    rewind_to_height depth ⟨[(H, g1)], [⟨a, v1, H⟩]⟩ (H - 1) = .ok ⟨[], []⟩ ∧
    get_balance ⟨[], []⟩ a = 0 ∧
    scan_cached_blocks oracle H [⟨H, g1, p1, o1⟩, ⟨H + 1, g2, g1, o2⟩]
        ⟨[(H, g1)], [⟨a, v1, H⟩]⟩ none =
      (⟨[(H, g1), (H + 1, g2)], [⟨a, v1, H⟩, ⟨a, v2, H + 1⟩]⟩, none) := by
  have hsub : H - 1 + 1 = H := by omega
  have hcp2 : checkpointOf ⟨[(H, g1), (H + 1, g2)], [⟨a, v1, H⟩, ⟨a, v2, H + 1⟩]⟩ =
      some (H + 1, g2) := by
    simp only [checkpointOf, List.foldl_cons, List.foldl_nil]
    rw [if_pos (by omega : H < H + 1)]
  refine ⟨?_, ?_, ?_, ?_, ?_, ?_, ?_, ?_⟩
  · show scanLoop oracle
        (orderedQuery SBlock.height [⟨H, g1, p1, o1⟩, ⟨H + 1, g2, g1, o2⟩] (H - 1) none)
        (H - 1) ⟨[], []⟩ = _
    have hq : orderedQuery SBlock.height [⟨H, g1, p1, o1⟩, ⟨H + 1, g2, g1, o2⟩]
        (H - 1) none = [⟨H, g1, p1, o1⟩, ⟨H + 1, g2, g1, o2⟩] := by
      unfold orderedQuery
      have hd1 : decide (H - 1 < H) = true := decide_eq_true (by omega)
      have hd2 : decide (H - 1 < H + 1) = true := decide_eq_true (by omega)
      simp only [List.filter_cons, List.filter_nil, hd1, hd2, if_true]
      simp only [sortByKey, sortInsert]
      rw [if_pos (by omega : H ≤ H + 1)]
      rw [List.take_of_length_le (by norm_num [Option.getD_none])]
    rw [hq]
    simp only [scanLoop, hsub, if_pos rfl, scanBlock, List.nil_append, ho1, ho2,
      List.map_cons, List.map_nil]
    rfl
  · simp only [get_balance, List.filter_cons, List.filter_nil, decide_True,
      if_true, List.foldl_cons, List.foldl_nil]
    omega
  · unfold rewind_to_height
    rw [hcp2]
    dsimp only
    rw [if_pos (by omega : H + 1 ≤ H + 1)]
  · unfold rewind_to_height
    rw [hcp2]
    dsimp only
    rw [if_neg (by omega : ¬(H + 1 ≤ H)), if_neg (by omega : ¬(H + depth < H + 1))]
    have hk1 : decide (H ≤ H) = true := decide_eq_true (by omega)
    have hk2 : decide (H + 1 ≤ H) = false := decide_eq_false (by omega)
    simp only [List.filter_cons, List.filter_nil, hk1, hk2, if_true,
      Bool.false_eq_true, if_false]
  · simp only [get_balance, List.filter_cons, List.filter_nil, decide_True,
      if_true, List.foldl_cons, List.foldl_nil]
    omega
  · unfold rewind_to_height
    have hcp1 : checkpointOf ⟨[(H, g1)], [⟨a, v1, H⟩]⟩ = some (H, g1) := rfl
    rw [hcp1]
    dsimp only
    rw [if_neg (by omega : ¬(H ≤ H - 1)), if_neg (by omega : ¬(H - 1 + depth < H))]
    have hk3 : decide (H ≤ H - 1) = false := decide_eq_false (by omega)
    simp only [List.filter_cons, List.filter_nil, hk3, Bool.false_eq_true, if_false]
  · rfl
  · show scanLoop oracle
        (orderedQuery SBlock.height [⟨H, g1, p1, o1⟩, ⟨H + 1, g2, g1, o2⟩] H none) H
        ⟨[(H, g1)], [⟨a, v1, H⟩]⟩ = _
    have hq : orderedQuery SBlock.height [⟨H, g1, p1, o1⟩, ⟨H + 1, g2, g1, o2⟩] H none =
        [⟨H + 1, g2, g1, o2⟩] := by
      unfold orderedQuery
      have hd1 : decide (H < H) = false := decide_eq_false (by omega)
      have hd2 : decide (H < H + 1) = true := decide_eq_true (by omega)
      simp only [List.filter_cons, List.filter_nil, hd1, hd2, if_true,
        Bool.false_eq_true, if_false]
      rw [List.take_of_length_le (by norm_num [sortByKey, sortInsert, Option.getD_none])]
      rfl
    rw [hq]
    simp only [scanLoop, if_pos rfl, scanBlock, ho2, List.map_cons, List.map_nil]
    rfl

/-- C7 witness: concrete instance with `H = 10`, `v1 = 5`, `v2 = 7`: balances
`12`, `12`, `5`, `0` through the scan/rewind sequence, and `12` again after
re-scanning. -/
theorem C7_witness :
    scan_cached_blocks (fun d => if d = 1 then some (0, 5) else some (0, 7)) 10
        [⟨10, 101, 100, [1]⟩, ⟨11, 102, 101, [2]⟩] ⟨[], []⟩ none =
      (⟨[(10, 101), (11, 102)], [⟨0, 5, 10⟩, ⟨0, 7, 11⟩]⟩, none) ∧
    get_balance ⟨[(10, 101), (11, 102)], [⟨0, 5, 10⟩, ⟨0, 7, 11⟩]⟩ 0 = 12 ∧
    rewind_to_height 100 ⟨[(10, 101), (11, 102)], [⟨0, 5, 10⟩, ⟨0, 7, 11⟩]⟩ 10 =
      .ok ⟨[(10, 101)], [⟨0, 5, 10⟩]⟩ ∧
    get_balance ⟨[(10, 101)], [⟨0, 5, 10⟩]⟩ 0 = 5 ∧
    rewind_to_height 100 ⟨[(10, 101)], [⟨0, 5, 10⟩]⟩ 9 = .ok ⟨[], []⟩ := by
  have h := C7_rewind_balances (fun d => if d = 1 then some (0, 5) else some (0, 7))
    10 101 102 100 0 5 7 100 [1] [2] (by norm_num) (by norm_num) (by decide) (by decide)
  exact ⟨h.1, h.2.1, h.2.2.2.1, h.2.2.2.2.1, h.2.2.2.2.2.1⟩

end Zcash
